import Mathlib

/-!
Verification of the 2d-tree spatial index (src/2dtree.cpp, src/primitives.h,
src/mpool.h) against its natural-language specification.

Modelling conventions:
* `double` coordinates are embedded as exact rationals `ℚ`.  The machine
  epsilon `std::numeric_limits<double>::epsilon()` is the exact rational
  2^-52.  Stored points and query keys carry real (finite) coordinates,
  matching the spec's data model ("two real coordinates").
* The implicit query rectangles start at `(-INF,-INF)..(INF,INF)`, so
  rectangle corners range over the extended rationals `ERat`
  (`-∞`, finite, `+∞`), mirroring IEEE infinities.  All arithmetic on
  `ERat` performed by the embedded code applies a finite value to an
  extended one, so no NaN can arise on any reachable path; the one
  impossible case (`∞ - ∞`) is mapped to `∞`, which makes the derived
  comparisons agree with IEEE behaviour (`NaN < e` is false, and
  `|∞ - ∞| < EPS` is false either way).
* Euclidean distances (`std::hypot`) are represented by their squares.
  Squaring is strictly monotone on nonnegative reals, so every comparison
  (`<`, `>`, `min`, and exact equality of map keys) performed by the code
  on distances is faithfully mirrored on squared distances; the code never
  uses a distance other than through such comparisons.
-/

/-- Machine epsilon of `double`: 2^-52, written as an explicit numeral. -/
def EPS : ℚ := 1 / 4503599627370496

/-- Embeds `double_equal` from src/primitives.h: `|x - y| < EPS`. -/
def double_equal (x y : ℚ) : Bool := decide (|x - y| < EPS)

/-- Embeds `Point` (src/primitives.h): two real coordinates. -/
structure Point where
  x : ℚ
  y : ℚ
deriving DecidableEq

/-- Embeds `Point::distance` squared: `hypot(dx, dy)^2 = dx*dx + dy*dy`. -/
def Point.dist2 (a b : Point) : ℚ :=
  (a.x - b.x) * (a.x - b.x) + (a.y - b.y) * (a.y - b.y)

/-- Embeds `Point::operator<`: epsilon-tolerant lexicographic order. -/
def Point.lt (a b : Point) : Bool :=
  if double_equal a.x b.x then
    if double_equal a.y b.y then false
    else decide (a.y < b.y)
  else decide (a.x < b.x)

/-- Embeds `Point::operator==`: both coordinates equal within epsilon. -/
def Point.eq (a b : Point) : Bool :=
  double_equal a.x b.x && double_equal a.y b.y

/-- Extended rationals modelling `double` values including `±INF`,
used for the implicitly derived query rectangles. -/
inductive ERat where
  | ninf
  | fin (q : ℚ)
  | inf
deriving DecidableEq

/-- Embeds `<=` on doubles restricted to non-NaN values. -/
def ERat.le : ERat → ERat → Bool
  | .ninf, _ => true
  | _, .inf => true
  | .fin a, .fin b => decide (a ≤ b)
  | .inf, .fin _ => false
  | .inf, .ninf => false
  | .fin _, .ninf => false

/-- Embeds `<` on doubles restricted to non-NaN values. -/
def ERat.lt : ERat → ERat → Bool
  | .ninf, .ninf => false
  | .ninf, _ => true
  | .inf, _ => false
  | .fin a, .fin b => decide (a < b)
  | .fin _, .inf => true
  | .fin _, .ninf => false

/-- Subtraction of an extended value from a finite one (the only
subtraction shape the embedded code performs). -/
def ERat.subF (q : ℚ) : ERat → ERat
  | .fin r => .fin (q - r)
  | .inf => .ninf
  | .ninf => .inf

/-- Embeds `std::abs` on the values reachable here (`|±∞| = ∞`). -/
def ERat.eabs : ERat → ERat
  | .fin q => .fin |q|
  | _ => .inf

/-- Squaring, the representation of `hypot`-style magnitudes;
`(±∞)^2 = ∞` as in IEEE arithmetic. -/
def ERat.sq : ERat → ERat
  | .fin q => .fin (q * q)
  | _ => .inf

/-- Addition; the embedded code only ever adds squares (never `-∞`),
so the `-∞` rows are unreachable and mapped like IEEE sums with `-∞`. -/
def ERat.add : ERat → ERat → ERat
  | .fin a, .fin b => .fin (a + b)
  | .inf, _ => .inf
  | _, .inf => .inf
  | _, _ => .ninf

/-- Embeds `std::min` on doubles: `min(a,b) = b < a ? b : a`. -/
def ERat.emin (a b : ERat) : ERat := if ERat.lt b a then b else a

/-- Rectangle corner: a point whose coordinates may be infinite. -/
abbrev EPoint := ERat × ERat

/-- Coerces a stored (finite) point to a rectangle-corner point. -/
def toE (p : Point) : EPoint := (.fin p.x, .fin p.y)

/-- Squared distance from a finite point to a possibly-infinite corner. -/
def dist2E (p : Point) (c : EPoint) : ERat :=
  ERat.add (ERat.sq (ERat.subF p.x c.1)) (ERat.sq (ERat.subF p.y c.2))

/-- Embeds `Rect` (src/primitives.h): lower-left and upper-right corners. -/
structure Rect where
  left_bottom : EPoint
  right_top : EPoint
deriving DecidableEq

def Rect.xmin (r : Rect) : ERat := r.left_bottom.1
def Rect.ymin (r : Rect) : ERat := r.left_bottom.2
def Rect.xmax (r : Rect) : ERat := r.right_top.1
def Rect.ymax (r : Rect) : ERat := r.right_top.2

/-- Embeds `Rect::contains` for an arbitrary (corner) point. -/
def Rect.containsE (r : Rect) (p : EPoint) : Bool :=
  ERat.le p.1 r.xmax && ERat.le r.xmin p.1 &&
    ERat.le p.2 r.ymax && ERat.le r.ymin p.2

/-- Embeds `Rect::contains` applied to a stored point. -/
def Rect.containsPt (r : Rect) (p : Point) : Bool := r.containsE (toE p)

/-- Embeds `Rect::intersects_impl`: does `r` contain a corner of `a`? -/
def Rect.intersectsImpl (r a : Rect) : Bool :=
  r.containsE (a.xmin, a.ymin) || r.containsE (a.xmin, a.ymax) ||
    r.containsE (a.xmax, a.ymin) || r.containsE (a.xmax, a.ymax)

/-- Embeds `Rect::intersects`: corner containment in either direction. -/
def Rect.intersects (r a : Rect) : Bool :=
  r.intersectsImpl a || a.intersectsImpl r

/-- Embeds `Rect::distance` squared: 0 when the point is contained,
else the minimum over the four corner distances and the two
perpendicular (edge-aligned) distances; each array entry is squared. -/
def Rect.dist2 (r : Rect) (p : Point) : ERat :=
  if r.containsPt p then .fin 0
  else
    let entries : List ERat := [
      dist2E p (r.xmin, r.ymin),
      dist2E p (r.xmin, r.ymax),
      dist2E p (r.xmax, r.ymin),
      dist2E p (r.xmax, r.ymax),
      (if ERat.le (.fin p.x) r.xmax && ERat.le r.xmin (.fin p.x) then
        ERat.sq (ERat.emin (ERat.eabs (ERat.subF p.y r.ymin))
          (ERat.eabs (ERat.subF p.y r.ymax)))
       else .inf),
      (if ERat.le (.fin p.y) r.ymax && ERat.le r.ymin (.fin p.y) then
        ERat.sq (ERat.emin (ERat.eabs (ERat.subF p.x r.xmin))
          (ERat.eabs (ERat.subF p.x r.xmax)))
       else .inf)]
    entries.foldl ERat.emin .inf

/-- Embeds `PointSet::Orientation` (named `Orient` here because Mathlib
already declares an `Orientation`). -/
inductive Orient where
  | Vertical
  | Horizontal
deriving DecidableEq

/-- Embeds `PointSet::next`. -/
def next : Orient → Orient
  | .Vertical => .Horizontal
  | .Horizontal => .Vertical

/-- Embeds `PointSet::Node`; `nil` models a null `shared_ptr`. -/
inductive Node where
  | nil
  | node (point : Point) (orientation : Orient)
      (left right : Node) (size : ℕ)
deriving DecidableEq

/-- Embeds `PointSet::size()`: the root's cached counter, 0 when empty. -/
def rootSize : Node → ℕ
  | .nil => 0
  | .node _ _ _ _ s => s

/-- The routing condition shared by `put` and `contains`:
`(o == Vertical && key.x >= q.x) || (o == Horizontal && key.y >= q.y)`. -/
def routeRight (o : Orient) (key q : Point) : Bool :=
  match o with
  | .Vertical => decide (q.x ≤ key.x)
  | .Horizontal => decide (q.y ≤ key.y)

/-- Embeds `PointSet::contains`: the descent loop of src/2dtree.cpp. -/
def kdContains : Node → Point → Bool
  | .nil, _ => false
  | .node q o l r _, key =>
    if Point.eq q key then true
    else if routeRight o key q then kdContains r key
    else kdContains l key

/-- Embeds the loop body of `PointSet::put`: `ori` is the tracked
`now_orientation`.  Note the faithful order of effects: the equality test
happens before the current node's size is incremented, so ancestors
already visited keep their increments even when a deeper duplicate is
found and the insertion is abandoned. -/
def putAux (key : Point) : Node → Orient → Node
  | .nil, ori => .node key ori .nil .nil 1
  | .node q o l r s, ori =>
    if Point.eq key q then .node q o l r s
    else if routeRight o key q then
      .node q o l (putAux key r (next ori)) (s + 1)
    else
      .node q o (putAux key l (next ori)) r (s + 1)

/-- Embeds `PointSet::put`: the descent starts at the root with the
tracked orientation `Vertical`. -/
def put (t : Node) (key : Point) : Node := putAux key t .Vertical

/-- Checks the node invariant of the spec:
`size = 1 + left.size (if present) + right.size (if present)`, at every
node of the tree. -/
def sizeOk : Node → Bool
  | .nil => true
  | .node _ _ l r s =>
    (s == 1 + rootSize l + rootSize r) && sizeOk l && sizeOk r

/-- All points stored in a tree, in preorder. -/
def treeElems : Node → List Point
  | .nil => []
  | .node q _ l r _ => q :: (treeElems l ++ treeElems r)

/-- Embeds `std::set<Point>::insert` with the `Point::operator<`
comparator: ordered insertion that skips an element equivalent
(neither `<`) to one already present. -/
def setInsert : List Point → Point → List Point
  | [], p => [p]
  | q :: t, p =>
    if Point.lt p q then p :: q :: t
    else if Point.lt q p then q :: setInsert t p
    else q :: t

/-- Embeds `PointSet::split`: derive the two children's rectangles by
splitting the carried rectangle at the node's point and orientation. -/
def splitRect (rect_now : Rect) (node_point : Point) :
    Orient → Rect × Rect
  | .Vertical =>
    let x := node_point.x
    let rect_right := Rect.mk (ERat.fin x, rect_now.ymin) rect_now.right_top
    let rect_left := Rect.mk rect_now.left_bottom (ERat.fin x, rect_now.ymax)
    (rect_left, rect_right)
  | .Horizontal =>
    let y := node_point.y
    let rect_left := Rect.mk rect_now.left_bottom (rect_now.xmax, ERat.fin y)
    let rect_right := Rect.mk (rect_now.xmin, ERat.fin y) rect_now.right_top
    (rect_left, rect_right)

/-- The whole-plane rectangle `Rect(Point(-INF,-INF), Point(INF,INF))`
used at the root of both query recursions. -/
def planeRect : Rect := Rect.mk (.ninf, .ninf) (.inf, .inf)

/-- Embeds `PointSet::range_impl`: `acc` is the `ans_set` accumulator. -/
def rangeImpl (key : Rect) : Node → List Point → Rect → List Point
  | .nil, acc, _ => acc
  | .node q o l r _, acc, rect_now =>
    if !(key.intersects rect_now) then acc
    else
      let acc1 := if key.containsPt q then setInsert acc q else acc
      let pair := splitRect rect_now q o
      rangeImpl key r (rangeImpl key l acc1 pair.1) pair.2

/-- Embeds `PointSet::range`: the sorted distinct list of matches that
`range` materializes into its detached result chain. -/
def rangeList (t : Node) (key : Rect) : List Point :=
  rangeImpl key t [] planeRect

/-- Embeds `std::map<double, Point>::emplace` on the distance-keyed
candidate map: a strictly sorted association list; an entry whose key is
already present is NOT inserted (unique keys). -/
def mapEmplace : List (ℚ × Point) → ℚ × Point → List (ℚ × Point)
  | [], e => [e]
  | (d', p') :: t, (d, p) =>
    if d < d' then (d, p) :: (d', p') :: t
    else if d' < d then (d', p') :: mapEmplace t (d, p)
    else (d', p') :: t

/-- The key of `--ans_set.end()`: the largest key of the candidate map.
The map is never empty at the point of use (`k >= 1` and the current
node was just emplaced); the default 0 is dead code. -/
def lastKey (l : List (ℚ × Point)) : ℚ :=
  ((l.getLast?).map Prod.fst).getD 0

/-- Embeds `PointSet::nearest_impl`: emplace the node's point keyed by
its (squared) distance, evict the farthest entry past `k`, and prune
both children when the carried rectangle's minimum (squared) distance
exceeds the current worst kept key. -/
def nearestImpl (key : Point) (k : ℕ) :
    Node → List (ℚ × Point) → Rect → List (ℚ × Point)
  | .nil, m, _ => m
  | .node q o l r _, m, rect_now =>
    let m1 := mapEmplace m (Point.dist2 key q, q)
    let m2 := if k < m1.length then m1.dropLast else m1
    if ERat.lt (.fin (lastKey m2)) (rect_now.dist2 key) then m2
    else
      let pair := splitRect rect_now q o
      nearestImpl key k r (nearestImpl key k l m2 pair.1) pair.2

/-- Embeds `PointSet::nearest(key, k)`: the sorted distinct list of
points that the call materializes into its detached result chain
(`k = 0` and an empty candidate map yield the empty result). -/
def nearestList (t : Node) (key : Point) (k : ℕ) : List Point :=
  if k = 0 then []
  else
    let m := nearestImpl key k t [] planeRect
    if m = [] then []
    else (m.map Prod.snd).foldl setInsert []

/-- Resource accounting of `PointSet::nearest(key, k)`: how many times
the call runs `create_pool` and `destroy_pool`, following the source's
control flow (the early `return {}` on an empty candidate map happens
before the `destroy_pool(pool)` statement). -/
def nearestPools (t : Node) (key : Point) (k : ℕ) : ℕ × ℕ :=
  if k = 0 then (0, 0)
  else
    let m := nearestImpl key k t [] planeRect
    if m = [] then (1, 0)
    else (1, 1)

/-- Sorted insertion used to model `std::sort`; the comparator is a
strict `<` on the sort key, and this insertion is stable.  `std::sort`
leaves the order of tie elements unspecified; the concrete inputs used
below have no distinct tied elements, so stability is immaterial. -/
def insertByKey (f : Point → ℚ) (p : Point) : List Point → List Point
  | [] => [p]
  | q :: t => if decide (f p < f q) then p :: q :: t else q :: insertByKey f p t

/-- Models `std::sort(begin, end, cmp)` as an insertion sort. -/
def sortByKey (f : Point → ℚ) : List Point → List Point
  | [] => []
  | p :: t => insertByKey f p (sortByKey f t)

theorem insertByKey_length (f : Point → ℚ) (p : Point) :
    ∀ l : List Point, (insertByKey f p l).length = l.length + 1 := by
  intro l
  induction l with
  | nil => simp [insertByKey]
  | cons q t ih =>
    by_cases h : decide (f p < f q) = true <;>
      simp [insertByKey, h, ih, Nat.add_comm, Nat.add_left_comm]

theorem sortByKey_length (f : Point → ℚ) :
    ∀ l : List Point, (sortByKey f l).length = l.length := by
  intro l
  induction l with
  | nil => rfl
  | cons p t ih => simp [sortByKey, insertByKey_length, ih]

/-- The sort key selected by the current level's orientation:
`p1.x() < p2.x()` at Vertical levels, `p1.y() < p2.y()` at Horizontal. -/
def axisKey : Orient → Point → ℚ
  | .Vertical => Point.x
  | .Horizontal => Point.y

/-- Embeds `PointSet::balancing`: sort along the orientation axis, `put`
the median, then recursively balance both halves with the opposite
orientation.  The tree is threaded through because `put` mutates the
shared root. -/
def balancing (l : List Point) (ori : Orient) (t : Node) : Node :=
  match l with
  | [] => t
  | a :: b =>
    let s := sortByKey (axisKey ori) (a :: b)
    let m := s.length / 2
    let t1 := put t (s.getD m ⟨0, 0⟩)
    let t2 := balancing (s.take m) (next ori) t1
    balancing (s.drop (m + 1)) (next ori) t2
termination_by l.length
decreasing_by
  · simp [sortByKey_length]
    omega
  · simp [sortByKey_length]
    omega

/-- Embeds the `PointSet` constructor on a non-empty file: bulk
construction of the index from the loaded point list. -/
def buildPointSet (l : List Point) : Node := balancing l .Vertical .nil

/-- Embeds the loader `read` (src/2dtree.cpp): tokens are consumed in
pairs; when the final `in >> y` fails on an unpaired trailing token,
C++11 stream extraction writes 0 to `y` and the point `(x, 0)` is still
appended before the outer `while (in >> x)` terminates. -/
def readPoints : List ℚ → List Point
  | [] => []
  | [x] => [⟨x, 0⟩]
  | x :: y :: rest => ⟨x, y⟩ :: readPoints rest

/-- Modelled from the spec: `deduplicate_within_epsilon(S)` — the
distinct representatives of S under the epsilon equality, collected in
S's order through the same ordered-set insertion the code uses. -/
def dedupEps (l : List Point) : List Point := l.foldl setInsert []

/-- Writes `b` into slots `[i, i+n)` of the occupancy bitmap (the loops
in `Pool::allocate` / `Pool::deallocate`). -/
def setRange (b : Bool) : List Bool → ℕ → ℕ → List Bool
  | u, _, 0 => u
  | u, i, n + 1 => setRange b (u.set i b) (i + 1) n

/-- Embeds the inner run-measuring loop of `Pool::find_empty_place`:
starting at slot `j`, advance while slot `j` is in range and free and
fewer than `n` slots have been counted; returns the final `j`.  The
loop counter `k` of the source is represented by the remaining count
`rem = n - k`, so the recursion is structural. -/
def freeRun (used : List Bool) : ℕ → ℕ → ℕ
  | j, 0 => j
  | j, rem + 1 =>
    if j < used.length ∧ used.getD j true = false then
      freeRun used (j + 1) rem
    else j

/-- Embeds the outer loop of `Pool::find_empty_place`; `fuel` bounds the
number of outer iterations (each iteration advances `i` by at least one,
so `used.length + 1` fuel is always sufficient — see `find_empty_place`). -/
def findLoop (used : List Bool) (n : ℕ) : ℕ → ℕ → Option ℕ
  | 0, _ => none
  | fuel + 1, i =>
    if i < used.length then
      if used.getD i true then findLoop used n fuel (i + 1)
      else
        let j := freeRun used i n
        if n = j - i then some i
        else findLoop used n fuel (j + 1)
    else none

/-- Embeds `Pool::find_empty_place`: `npos` becomes `none`. -/
def find_empty_place (used : List Bool) (n : ℕ) : Option ℕ :=
  if used.length < n then none
  else findLoop used n (used.length + 1) 0

/-- Embeds `Pool::allocate` on the occupancy bitmap: `none` models the
`throw std::bad_alloc` failure branch. -/
def poolAllocate (used : List Bool) (n : ℕ) : Option (List Bool) :=
  match find_empty_place used n with
  | some pos => some (setRange true used pos n)
  | none => none

/-- Embeds `Pool::deallocate`: `off` is the slot offset computed from
the pointer; out-of-arena offsets are a silent no-op, and the cleared
run is clamped to the bitmap's end. -/
def poolDeallocate (used : List Bool) (off n : ℕ) : List Bool :=
  if off < used.length then
    setRange false used off (min n (used.length - off))
  else used

/-- An allocator call: `alloc n` or `dealloc offset n`. -/
inductive PoolOp where
  | alloc (n : ℕ)
  | dealloc (off n : ℕ)
deriving DecidableEq

/-- Runs a call sequence against a pool bitmap; `none` as soon as an
`allocate` reaches the failure branch. -/
def runOps : List Bool → List PoolOp → Option (List Bool)
  | used, [] => some used
  | used, .alloc n :: rest =>
    match poolAllocate used n with
    | some u' => runOps u' rest
    | none => none
  | used, .dealloc off n :: rest => runOps (poolDeallocate used off n) rest

/-- The number of simultaneously live records: occupied bitmap slots. -/
def liveCount (used : List Bool) : ℕ := used.count true

/-- The claim's hypothesis, read along the actual run: before each
`alloc`, the live count plus the requested run stays within `cap`
(once an allocation fails there is nothing further to constrain). -/
def safeOps (cap : ℕ) : List Bool → List PoolOp → Bool
  | _, [] => true
  | used, .alloc n :: rest =>
    decide (liveCount used + n ≤ cap) &&
      (match poolAllocate used n with
       | some u' => safeOps cap u' rest
       | none => true)
  | used, .dealloc off n :: rest => safeOps cap (poolDeallocate used off n) rest

/-- Embeds `PointSet::save_tree`: the detached result chain — the first
result point becomes the head, each further point hangs off the `left`
child of the previous node; every chain node is `Vertical` with the
constructor's initial cached size 1. -/
def saveTree : List Point → Node
  | [] => .nil
  | p :: rest => .node p .Vertical (saveTree rest) .nil 1

/-- Number of nodes of a tree (for the traversal termination measure). -/
def nodesCount : Node → ℕ
  | .nil => 0
  | .node _ _ l r _ => 1 + nodesCount l + nodesCount r

/-- The queue entries contributed by one child pointer: `iterator++`
pushes a child only when it is non-null. -/
def pushChild : Node → List Node
  | .nil => []
  | .node p o l r s => [.node p o l r s]

/-- Total node count held by a pending queue. -/
def queueSize (q : List Node) : ℕ := (q.map nodesCount).sum

theorem pushChild_sum (n : Node) : queueSize (pushChild n) = nodesCount n := by
  cases n <;> simp [pushChild, queueSize, nodesCount]

theorem queueSize_append (a b : List Node) :
    queueSize (a ++ b) = queueSize a + queueSize b := by
  simp [queueSize]

/-- Embeds the forward iterator of `PointSet` (src/primitives.h):
the sequence of points delivered from position `now` with pending queue
`q` until `now` reaches the null end sentinel.  Each step appends the
non-null children of `now` to the queue (left first) and pops the front. -/
def iterEnum : Node → List Node → List Point
  | .nil, _ => []
  | .node p o l r s, q =>
    match h : (q ++ pushChild l) ++ pushChild r with
    | [] => [p]
    | h1 :: t => p :: iterEnum h1 t
termination_by now q => nodesCount now + queueSize q
decreasing_by
  have hq : queueSize ((q ++ pushChild l) ++ pushChild r) =
      queueSize q + nodesCount l + nodesCount r := by
    simp [queueSize_append, pushChild_sum]
    omega
  have hq2 : queueSize (h1 :: t) = nodesCount h1 + queueSize t := by
    simp [queueSize]
  rw [h] at hq
  simp [nodesCount]
  omega

theorem EPS_pos : (0 : ℚ) < EPS := by norm_num [EPS]

theorem double_equal_refl (x : ℚ) : double_equal x x = true := by
  simp [double_equal, EPS_pos]

theorem double_equal_comm (x y : ℚ) :
    double_equal x y = double_equal y x := by
  simp [double_equal, abs_sub_comm]

/-- Evaluation form of `double_equal`: the absolute value spelled as two
one-sided bounds, so that concrete instances reduce by `norm_num`. -/
theorem double_equal_eval (x y : ℚ) :
    double_equal x y = (decide (x - y < EPS) && decide (y - x < EPS)) := by
  simp [double_equal, abs_sub_lt_iff, Bool.and_comm]

theorem Point.eq_refl (p : Point) : Point.eq p p = true := by
  simp [Point.eq, double_equal_refl]

theorem Point.eq_comm (a b : Point) : Point.eq a b = Point.eq b a := by
  simp [Point.eq, double_equal_comm]

/-- The index built by the insertion sequence
`(0,0), (4,2), (3,0), (2,1), (3/2,3/2)` — a legitimate index state.  The
subtree rooted at `(3/2,3/2)` carries the implicit rectangle
`[0,3] × [1,2]`. -/
def c1tree : Node :=
  put (put (put (put (put .nil ⟨0,0⟩) ⟨4,2⟩) ⟨3,0⟩) ⟨2,1⟩) ⟨3/2, 3/2⟩

/-- The query rectangle `[1,2] × [0,3]`.  It overlaps `[0,3] × [1,2]`
in `[1,2] × [1,2]`, yet neither rectangle contains a corner of the
other, so `Rect::intersects` reports no intersection. -/
def c1rect : Rect := Rect.mk (.fin 1, .fin 0) (.fin 2, .fin 3)

/-- Claim C1: `range(R)` must return every stored point inside R, for
every index.  Refuted on the code: `(3/2, 3/2)` is stored in `c1tree`
and lies inside `c1rect`, but the corner-containment `Rect::intersects`
misses the cross-shaped overlap of the query with the carried rectangle
`[0,3] × [1,2]`, so the pruning rule abandons the subtree and the point
is missing from the result. -/
theorem C1_range_misses_stored_point :
    (⟨3/2, 3/2⟩ : Point) ∈ treeElems c1tree ∧
      c1rect.containsPt ⟨3/2, 3/2⟩ = true ∧
      rangeList c1tree c1rect = [⟨2, 1⟩] := by
  refine ⟨?_, ?_, ?_⟩
  · norm_num [c1tree, put, putAux, treeElems, Point.eq, double_equal_eval, EPS,
      routeRight, next]
  · norm_num [c1rect, Rect.containsPt, Rect.containsE, toE, Rect.xmin, Rect.xmax,
      Rect.ymin, Rect.ymax, ERat.le]
  · norm_num [c1tree, c1rect, put, putAux, rangeList, rangeImpl, planeRect,
      Rect.intersects, Rect.intersectsImpl, Rect.containsPt, Rect.containsE, toE,
      Rect.xmin, Rect.xmax, Rect.ymin, Rect.ymax, ERat.le, splitRect, setInsert,
      Point.eq, Point.lt, double_equal_eval, EPS, routeRight, next]

/-- The index holding `(0,0)` and `(0,2)`: two points both at Euclidean
distance 1 (squared distance 1) from the key `(0,1)`. -/
def c2tree : Node := put (put .nil ⟨0,0⟩) ⟨0,2⟩

/-- Claim C2: `nearest(key, k)` must return `min(k, size)` points whose
distance multiset is the k smallest.  Refuted on the code: with the two
stored points equidistant from `(0,1)` and `k = 2`, the distance-keyed
`std::map` refuses the second emplace with the duplicate key, and the
call returns a single point instead of two. -/
theorem C2_nearest_drops_tied_point :
    rootSize c2tree = 2 ∧
      nearestList c2tree ⟨0, 1⟩ 2 = [⟨0, 0⟩] := by
  constructor
  · norm_num [c2tree, put, putAux, rootSize, Point.eq, double_equal_eval, EPS,
      routeRight, next]
  · norm_num [c2tree, put, putAux, nearestList, nearestImpl, planeRect,
      Rect.dist2, Rect.containsPt, Rect.containsE, toE, Rect.xmin, Rect.xmax,
      Rect.ymin, Rect.ymax, ERat.le, ERat.lt, splitRect, setInsert, mapEmplace,
      lastKey, Point.dist2, Point.eq, Point.lt, double_equal_eval, EPS,
      routeRight, next]

/-- A bulk-load input with one duplicate pair `(1,5)`: the first copy
becomes the root's left child during balancing, and the `put` of the
second copy increments the root's cached size before discovering the
duplicate one level down. -/
def c3list : List Point := [⟨0,0⟩, ⟨1,5⟩, ⟨1,5⟩, ⟨2,0⟩, ⟨3,1⟩, ⟨4,2⟩, ⟨5,3⟩]

/-- Claim C3: after bulk construction, `size()` must equal the number
of points remaining after epsilon-deduplication.  Refuted on the code:
the list above holds 6 distinct points, but the duplicate's abandoned
`put` left the root counter at 7. -/
theorem C3_size_overcounts_duplicates :
    rootSize (buildPointSet c3list) = 7 ∧ (dedupEps c3list).length = 6 := by
  constructor
  · norm_num [c3list, buildPointSet, balancing, sortByKey, insertByKey, axisKey,
      put, putAux, rootSize, Point.eq, double_equal_eval, EPS, routeRight, next]
  · norm_num [c3list, dedupEps, setInsert, Point.lt, Point.eq,
      double_equal_eval, EPS]

/-- Claim C4: every operation must preserve
`size = 1 + left.size + right.size` at every node.  Refuted on the
code: `put` increments each visited ancestor's cached size before
testing the next node for epsilon-equality, so a duplicate found one
level down leaves the root counter corrupted. -/
theorem C4_put_breaks_size_invariant :
    sizeOk (put (put (put .nil ⟨0,0⟩) ⟨1,0⟩) ⟨1,0⟩) = false := by
  norm_num [put, putAux, sizeOk, rootSize, Point.eq, double_equal_eval, EPS,
    routeRight, next]

/-- Claim C5: the pool created at entry of `nearest(key, k)` (k > 0)
must be destroyed on every exit path.  Refuted on the code: on an empty
index the candidate map is empty and the early `return {}` executes
before `destroy_pool(pool)`, so the call creates one pool and destroys
none. -/
theorem C5_empty_index_leaks_pool :
    nearestPools .nil ⟨0, 0⟩ 1 = (1, 0) := by
  norm_num [nearestPools, nearestImpl]

theorem setRange_length (b : Bool) :
    ∀ (n : ℕ) (u : List Bool) (i : ℕ),
      (setRange b u i n).length = u.length := by
  intro n
  induction n with
  | zero => intro u i; rfl
  | succ m ih => intro u i; simp [setRange, ih]

theorem setRange_one (b : Bool) (u : List Bool) (i : ℕ) :
    setRange b u i 1 = u.set i b := by
  simp [setRange]

theorem poolDeallocate_length (u : List Bool) (off n : ℕ) :
    (poolDeallocate u off n).length = u.length := by
  unfold poolDeallocate
  by_cases h : off < u.length <;> simp [h, setRange_length]

theorem liveCount_lt_free (u : List Bool) :
    liveCount u < u.length →
      ∃ k, k < u.length ∧ u.getD k true = false := by
  induction u with
  | nil => intro h; simp [liveCount] at h
  | cons b t ih =>
    intro h
    cases b with
    | false => exact ⟨0, by simp, by simp⟩
    | true =>
      have ht : liveCount t < t.length := by
        simp [liveCount, List.count_cons] at h ⊢
        omega
      obtain ⟨k, hk, hfree⟩ := ih ht
      exact ⟨k + 1, by simpa using hk, by simpa using hfree⟩

theorem freeRun_one (u : List Bool) (i : ℕ) (hi : i < u.length)
    (hfree : u.getD i true = false) : freeRun u i 1 = i + 1 := by
  have hg : u[i] = false := by
    rw [List.getD_eq_getElem u true hi] at hfree
    exact hfree
  simp [freeRun, hi, hg]

theorem findLoop_one_finds (u : List Bool) :
    ∀ (fuel i : ℕ),
      (∃ k, i ≤ k ∧ k < u.length ∧ u.getD k true = false) →
      u.length + 1 ≤ fuel + i →
      ∃ pos, findLoop u 1 fuel i = some pos ∧ pos < u.length ∧
        u.getD pos true = false := by
  intro fuel
  induction fuel with
  | zero =>
    intro i ⟨k, hik, hk, _⟩ hfuel
    omega
  | succ f ih =>
    intro i ⟨k, hik, hk, hfree⟩ hfuel
    have hi : i < u.length := by omega
    by_cases hbusy : u.getD i true = true
    · have hne : i ≠ k := by
        intro he
        rw [he, hfree] at hbusy
        exact Bool.false_ne_true hbusy
      have hg : u[i] = true := by
        rw [List.getD_eq_getElem u true hi] at hbusy
        exact hbusy
      have step : findLoop u 1 (f + 1) i = findLoop u 1 f (i + 1) := by
        simp [findLoop, hi, hg]
      rw [step]
      exact ih (i + 1) ⟨k, by omega, hk, hfree⟩ (by omega)
    · have hfree_i : u.getD i true = false := by
        cases h : u.getD i true
        · rfl
        · exact absurd h hbusy
      have hg : u[i] = false := by
        rw [List.getD_eq_getElem u true hi] at hfree_i
        exact hfree_i
      refine ⟨i, ?_, hi, hfree_i⟩
      simp [findLoop, hi, hg, freeRun_one u i hi hfree_i]

theorem poolAllocate_one (u : List Bool)
    (h : liveCount u < u.length) :
    ∃ pos, poolAllocate u 1 = some (u.set pos true) ∧ pos < u.length ∧
      u.getD pos true = false := by
  obtain ⟨k, hk, hfree⟩ := liveCount_lt_free u h
  obtain ⟨pos, hfind, hpos, hposfree⟩ :=
    findLoop_one_finds u (u.length + 1) 0 ⟨k, Nat.zero_le k, hk, hfree⟩
      (by omega)
  refine ⟨pos, ?_, hpos, hposfree⟩
  have hlen : ¬ u.length < 1 := by omega
  simp [poolAllocate, find_empty_place, hlen, hfind, setRange_one]

theorem liveCount_set_true (u : List Bool) :
    ∀ i, i < u.length → u.getD i true = false →
      liveCount (u.set i true) = liveCount u + 1 := by
  induction u with
  | nil => intro i hi _; simp at hi
  | cons b t ih =>
    intro i hi hfree
    cases i with
    | zero =>
      have hb : b = false := by simpa using hfree
      subst hb
      simp [liveCount, List.count_cons]
    | succ j =>
      have hj : j < t.length := by simpa using hi
      have hjfree : t.getD j true = false := by simpa using hfree
      have := ih j hj hjfree
      simp only [List.set, liveCount, List.count_cons] at this ⊢
      omega

/-- The call sequence `allocate(1); allocate(1); deallocate(slot 0, 1);
allocate(2)` on a pool of capacity 3: never more than 3 live records,
yet the final two-slot request finds only fragmented free slots 0 and 2. -/
def c6ops : List PoolOp := [.alloc 1, .alloc 1, .dealloc 0 1, .alloc 2]

/-- Claim C6 counterexample: a sequence whose live-record count never
exceeds the capacity (3), in which an `allocate` nevertheless reaches
the failure branch, because the free slots are not contiguous. -/
theorem C6_fragmentation_counterexample :
    safeOps 3 [false, false, false] c6ops = true ∧
      runOps [false, false, false] c6ops = none := by
  constructor
  · decide
  · decide

/-- Claim C6 (amended): every allocate/deallocate sequence in which all
allocations request a single slot and the number of simultaneously live
records never exceeds the capacity succeeds — no allocate reaches the
failure branch.  (The original claim, with arbitrary run lengths, fails
by fragmentation; see the counterexample.) -/
theorem C6_single_slot_sequences_succeed :
    ∀ (ops : List PoolOp) (used : List Bool),
      (∀ n : ℕ, PoolOp.alloc n ∈ ops → n = 1) →
      safeOps used.length used ops = true →
      (runOps used ops).isSome = true := by
  intro ops
  induction ops with
  | nil => intro used _ _; simp [runOps]
  | cons op rest ih =>
    intro used hone hsafe
    cases op with
    | alloc n =>
      have hn : n = 1 := hone n (List.mem_cons_self _ _)
      subst hn
      simp only [safeOps, Bool.and_eq_true, decide_eq_true_eq] at hsafe
      obtain ⟨hcap, hrest⟩ := hsafe
      have hlt : liveCount used < used.length := by omega
      obtain ⟨pos, halloc, hpos, hfree⟩ := poolAllocate_one used hlt
      rw [halloc] at hrest
      have hlen : (used.set pos true).length = used.length := by simp
      simp only [runOps, halloc]
      apply ih (used.set pos true)
      · intro m hm
        exact hone m (List.mem_cons_of_mem _ hm)
      · rw [hlen]
        exact hrest
    | dealloc off n =>
      simp only [safeOps] at hsafe
      simp only [runOps]
      apply ih (poolDeallocate used off n)
      · intro m hm
        exact hone m (List.mem_cons_of_mem _ hm)
      · rw [poolDeallocate_length]
        exact hsafe

/-- Witness for the amended C6 theorem at a concrete pool of capacity 2
and the sequence `allocate(1); allocate(1)`. -/
theorem C6_single_slot_sequences_succeed_witness :
    (∀ n : ℕ, PoolOp.alloc n ∈ ([.alloc 1, .alloc 1] : List PoolOp) → n = 1) ∧
      safeOps ([false, false] : List Bool).length [false, false]
        [.alloc 1, .alloc 1] = true ∧
      (runOps [false, false] [.alloc 1, .alloc 1]).isSome = true := by
  refine ⟨?_, by decide, ?_⟩
  · intro n hn
    simpa using hn
  · exact C6_single_slot_sequences_succeed [.alloc 1, .alloc 1] [false, false]
      (fun n hn => by simpa using hn) (by decide)

theorem readPoints_even_append :
    ∀ (n : ℕ) (l : List ℚ) (x : ℚ), l.length ≤ n → l.length % 2 = 0 →
      readPoints (l ++ [x]) = readPoints l ++ [⟨x, 0⟩] := by
  intro n
  induction n with
  | zero =>
    intro l x hlen _
    have hl : l = [] := List.eq_nil_of_length_eq_zero (by omega)
    subst hl
    rfl
  | succ m ih =>
    intro l x hlen hpar
    match l with
    | [] => rfl
    | [a] => simp at hpar
    | a :: b :: t =>
      have ht : t.length ≤ m := by
        simp at hlen
        omega
      have htpar : t.length % 2 = 0 := by
        simp [Nat.add_mod] at hpar
        omega
      show readPoints (a :: b :: (t ++ [x])) = _
      simp only [readPoints, List.cons_append]
      rw [ih t x ht htpar]

/-- Claim C7 counterexample: the odd token stream `1 2 3` does not drop
the unpaired trailing token — the loader appends the point `(3, 0)`
(C++11 stream extraction writes 0 on failure), and the built index
contains it. -/
theorem C7_unpaired_token_becomes_point :
    readPoints [1, 2, 3] = [⟨1, 2⟩, ⟨3, 0⟩] ∧
      kdContains (buildPointSet (readPoints [1, 2, 3])) ⟨3, 0⟩ = true := by
  constructor
  · rfl
  · norm_num [readPoints, buildPointSet, balancing, sortByKey, insertByKey,
      axisKey, put, putAux, kdContains, Point.eq, double_equal_eval, EPS,
      routeRight, next]

/-- Claim C7 (amended): on bulk-load input with an unpaired trailing
coordinate, the loader produces the points of the complete pairs
followed by one additional point pairing the trailing coordinate with 0
(the value C++11 stream extraction assigns on failure); the trailing
token is not dropped. -/
theorem C7_loader_appends_zero_point :
    ∀ (l : List ℚ) (x : ℚ), l.length % 2 = 0 →
      readPoints (l ++ [x]) = readPoints l ++ [⟨x, 0⟩] := by
  intro l x h
  exact readPoints_even_append l.length l x le_rfl h

/-- Witness for the amended C7 theorem at the token stream `1 2 3`. -/
theorem C7_loader_appends_zero_point_witness :
    ([1, 2] : List ℚ).length % 2 = 0 ∧
      readPoints (([1, 2] : List ℚ) ++ [3]) =
        readPoints [1, 2] ++ [⟨3, 0⟩] := by
  exact ⟨by decide, C7_loader_appends_zero_point [1, 2] 3 (by decide)⟩

theorem putAux_contains (t : Node) :
    ∀ (p : Point) (ori : Orient), kdContains (putAux p t ori) p = true := by
  induction t with
  | nil =>
    intro p ori
    simp [putAux, kdContains, Point.eq_refl]
  | node q o l r s ihl ihr =>
    intro p ori
    by_cases hpq : Point.eq p q = true
    · have hqp : Point.eq q p = true := by rw [Point.eq_comm]; exact hpq
      simp [putAux, hpq, kdContains, hqp]
    · have hqp : Point.eq q p = false := by
        rw [Point.eq_comm]
        exact Bool.not_eq_true _ ▸ Bool.of_not_eq_true hpq
      by_cases hroute : routeRight o p q = true
      · simp [putAux, hpq, hroute, kdContains, hqp, ihr]
      · simp [putAux, hpq, hroute, kdContains, hqp, ihl]

/-- Claim C8: `put` and `contains` share the same descent (`>=` routes
right, `<` routes left, an epsilon-equal node stops), so membership of a
point holds right after it is put, whatever the index state; `contains`
is a pure function of the tree in this embedding (the source takes the
index by const reference and performs no mutation). -/
theorem C8_contains_after_put (t : Node) (p : Point) :
    kdContains (put t p) p = true :=
  putAux_contains t p .Vertical

/-- Claim C9 counterexample: with EPS = 2^-52, epsilon equality is not
transitive (`0 ~ 2^-53 ~ 2^-52` but `0 !~ 2^-52`), and the epsilon
lexicographic order is not transitive either (the x gaps `3*2^-53` and
`3*2^-54` each fall below EPS, so both steps compare y, yet the total x
gap reaches EPS and reverses the comparison). -/
theorem C9_not_transitive :
    (Point.eq ⟨0, 0⟩ ⟨1/9007199254740992, 0⟩ = true ∧
      Point.eq ⟨1/9007199254740992, 0⟩ ⟨1/4503599627370496, 0⟩ = true ∧
      Point.eq ⟨0, 0⟩ ⟨1/4503599627370496, 0⟩ = false) ∧
    (Point.lt ⟨3/9007199254740992, 0⟩ ⟨3/18014398509481984, 1⟩ = true ∧
      Point.lt ⟨3/18014398509481984, 1⟩ ⟨0, 2⟩ = true ∧
      Point.lt ⟨3/9007199254740992, 0⟩ ⟨0, 2⟩ = false) := by
  refine ⟨⟨?_, ?_, ?_⟩, ⟨?_, ?_, ?_⟩⟩ <;>
    norm_num [Point.lt, Point.eq, double_equal_eval, EPS]

/-- Claim C9 (amended): the comparisons do satisfy trichotomy — for all
points `a`, `b` exactly one of `a < b`, `a == b`, `b < a` holds — but
neither the epsilon equality nor the epsilon lexicographic order is
transitive (see the counterexample). -/
theorem C9_comparison_trichotomy (a b : Point) :
    (Point.lt a b = true ∧ Point.eq a b = false ∧ Point.lt b a = false) ∨
    (Point.lt a b = false ∧ Point.eq a b = true ∧ Point.lt b a = false) ∨
    (Point.lt a b = false ∧ Point.eq a b = false ∧ Point.lt b a = true) := by
  have hx : double_equal b.x a.x = double_equal a.x b.x := double_equal_comm _ _
  have hy : double_equal b.y a.y = double_equal a.y b.y := double_equal_comm _ _
  by_cases hxe : double_equal a.x b.x = true
  · by_cases hye : double_equal a.y b.y = true
    · right; left
      simp [Point.lt, Point.eq, hxe, hye, hx, hy]
    · have hyeF : double_equal a.y b.y = false := by
        simpa using hye
      have hyne : a.y ≠ b.y := by
        intro h
        rw [h, double_equal_refl] at hyeF
        simp at hyeF
      rcases lt_trichotomy a.y b.y with h | h | h
      · left
        refine ⟨by simp [Point.lt, hxe, hyeF, h], ?_, ?_⟩
        · simp [Point.eq, hyeF]
        · simp [Point.lt, hx, hy, hxe, hyeF, h.asymm]
      · exact absurd h hyne
      · right; right
        refine ⟨by simp [Point.lt, hxe, hyeF, h.asymm], ?_, ?_⟩
        · simp [Point.eq, hyeF]
        · simp [Point.lt, hx, hy, hxe, hyeF, h]
  · have hxeF : double_equal a.x b.x = false := by
      simpa using hxe
    have hxne : a.x ≠ b.x := by
      intro h
      rw [h, double_equal_refl] at hxeF
      simp at hxeF
    rcases lt_trichotomy a.x b.x with h | h | h
    · left
      refine ⟨by simp [Point.lt, hxeF, h], ?_, ?_⟩
      · simp [Point.eq, hxeF]
      · simp [Point.lt, hx, hxeF, h.asymm]
    · exact absurd h hxne
    · right; right
      refine ⟨by simp [Point.lt, hxeF, h.asymm], ?_, ?_⟩
      · simp [Point.eq, hxeF]
      · simp [Point.lt, hx, hxeF, h]

/-- The strict point comparison as a relation, for stating sortedness
of result sequences. -/
def PtLt (a b : Point) : Prop := Point.lt a b = true

theorem setInsert_head (t : List Point) (p : Point) :
    (setInsert t p).head? = some p ∨ (setInsert t p).head? = t.head? := by
  match t with
  | [] => left; rfl
  | q :: t' =>
    by_cases h1 : Point.lt p q = true
    · left; simp [setInsert, h1]
    · by_cases h2 : Point.lt q p = true
      · right; simp [setInsert, h1, h2]
      · right; simp [setInsert, h1, h2]

theorem chain'_setInsert :
    ∀ (l : List Point) (p : Point),
      List.Chain' PtLt l → List.Chain' PtLt (setInsert l p) := by
  intro l
  induction l with
  | nil => intro p _; simp [setInsert]
  | cons q t ih =>
    intro p hch
    rw [List.chain'_cons'] at hch
    obtain ⟨hhead, htail⟩ := hch
    by_cases h1 : Point.lt p q = true
    · simp only [setInsert, h1, if_true]
      rw [List.chain'_cons']
      refine ⟨?_, List.chain'_cons'.mpr ⟨hhead, htail⟩⟩
      intro b hb
      simp at hb
      rw [← hb]
      exact h1
    · have h1' : Point.lt p q = false := by simpa using h1
      by_cases h2 : Point.lt q p = true
      · simp only [setInsert, h1', h2, Bool.false_eq_true, if_false, if_true]
        rw [List.chain'_cons']
        refine ⟨?_, ih p htail⟩
        intro b hb
        rcases setInsert_head t p with hh | hh
        · rw [hh] at hb
          simp at hb
          rw [← hb]
          exact h2
        · rw [hh] at hb
          exact hhead b hb
      · have h2' : Point.lt q p = false := by simpa using h2
        simp only [setInsert, h1', h2', Bool.false_eq_true, if_false]
        exact List.chain'_cons'.mpr ⟨hhead, htail⟩

theorem chain'_rangeImpl (key : Rect) :
    ∀ (t : Node) (acc : List Point) (rect : Rect),
      List.Chain' PtLt acc →
        List.Chain' PtLt (rangeImpl key t acc rect) := by
  intro t
  induction t with
  | nil => intro acc rect h; simpa [rangeImpl] using h
  | node q o l r s ihl ihr =>
    intro acc rect h
    by_cases hint : key.intersects rect = true
    · simp only [rangeImpl, hint, Bool.not_true, if_false, Bool.false_eq_true]
      apply ihr
      apply ihl
      by_cases hc : key.containsPt q = true
      · simpa [hc] using chain'_setInsert acc q h
      · simpa [hc] using h
    · have hint' : key.intersects rect = false := by simpa using hint
      simpa [rangeImpl, hint'] using h

theorem chain'_foldl_setInsert :
    ∀ (ps : List Point) (acc : List Point),
      List.Chain' PtLt acc → List.Chain' PtLt (ps.foldl setInsert acc) := by
  intro ps
  induction ps with
  | nil => intro acc h; simpa using h
  | cons p t ih =>
    intro acc h
    simpa using ih (setInsert acc p) (chain'_setInsert acc p h)

theorem chain'_rangeList (t : Node) (key : Rect) :
    List.Chain' PtLt (rangeList t key) :=
  chain'_rangeImpl key t [] planeRect (by simp)

theorem chain'_nearestList (t : Node) (key : Point) (k : ℕ) :
    List.Chain' PtLt (nearestList t key k) := by
  unfold nearestList
  by_cases hk : k = 0
  · simp [hk]
  · simp only [hk, if_false]
    by_cases hm : nearestImpl key k t [] planeRect = []
    · simp [hm]
    · simp only [hm, if_false]
      exact chain'_foldl_setInsert _ [] (by simp)

theorem iterEnum_saveTree :
    ∀ l : List Point, iterEnum (saveTree l) [] = l := by
  intro l
  induction l with
  | nil => simp [saveTree, iterEnum]
  | cons p rest ih =>
    match hr : rest with
    | [] => simp [saveTree, iterEnum, pushChild]
    | x :: rs =>
      rw [saveTree]
      rw [iterEnum]
      simp only [saveTree, pushChild, List.nil_append, List.append_nil]
      rw [← saveTree]
      exact congrArg (p :: ·) ih

/-- Claim C10: for a non-empty range or k-nearest result, the returned
iterator pair enumerates exactly the distinct result points in strictly
increasing order under the point comparison (each adjacent pair related
by `Point::operator<`), reaching the default end sentinel after one
increment per result point; the enumerated chain is produced by
`save_tree` from the result list alone, detached from the live index's
nodes. -/
theorem C10_result_iteration (t : Node) (R : Rect) (key : Point) (k : ℕ) :
    (rangeList t R ≠ [] →
      iterEnum (saveTree (rangeList t R)) [] = rangeList t R ∧
        List.Chain' PtLt (rangeList t R)) ∧
    (nearestList t key k ≠ [] →
      iterEnum (saveTree (nearestList t key k)) [] = nearestList t key k ∧
        List.Chain' PtLt (nearestList t key k)) := by
  constructor
  · intro _
    exact ⟨iterEnum_saveTree _, chain'_rangeList t R⟩
  · intro _
    exact ⟨iterEnum_saveTree _, chain'_nearestList t key k⟩

/-- Witness for C10 on the singleton index `{(1,2)}` and the query
rectangle `[0,2] × [0,3]`, whose result is the non-empty list `[(1,2)]`. -/
theorem C10_result_iteration_witness :
    rangeList (put .nil ⟨1, 2⟩) (Rect.mk (.fin 0, .fin 0) (.fin 2, .fin 3))
        ≠ [] ∧
      iterEnum (saveTree (rangeList (put .nil ⟨1, 2⟩)
          (Rect.mk (.fin 0, .fin 0) (.fin 2, .fin 3)))) [] =
        rangeList (put .nil ⟨1, 2⟩)
          (Rect.mk (.fin 0, .fin 0) (.fin 2, .fin 3)) := by
  have h : rangeList (put .nil ⟨1, 2⟩)
      (Rect.mk (.fin 0, .fin 0) (.fin 2, .fin 3)) = [⟨1, 2⟩] := by
    norm_num [put, putAux, rangeList, rangeImpl, planeRect,
      Rect.intersects, Rect.intersectsImpl, Rect.containsPt, Rect.containsE,
      toE, Rect.xmin, Rect.xmax, Rect.ymin, Rect.ymax, ERat.le, splitRect,
      setInsert, next]
  refine ⟨by rw [h]; simp, ?_⟩
  exact (C10_result_iteration (put .nil ⟨1, 2⟩)
    (Rect.mk (.fin 0, .fin 0) (.fin 2, .fin 3)) ⟨0, 0⟩ 1).1
    (by rw [h]; simp) |>.1
